import Mathlib

/-!
# Verification of the search core of the chess MCP server

A shallow embedding of `src/chess-mcp-server.js` (primary copy): the static
evaluator (`evaluatePosition` with piece-square tables), the move orderer
(`orderMoves`), the alpha-beta search (`minimax`), the best-move driver
(`getBestMove`), and the tool-call handlers.

The rules engine (`chess.js`) is an external collaborator; it is modelled as an
abstract `Engine` interface whose chess-specific facts (undo inverts a legal
move, turn alternation, draws are not checkmates, ...) appear as explicit
hypotheses collected in `Lawful`.

The mutable `Chess` object is embedded by explicit state passing: each
`...St` function returns its result together with the final engine state, so
the make/unmake discipline of the source is visible in the definitions.
JavaScript numbers (`-Infinity`/`Infinity` in the search) are embedded as
`EInt := WithBot (WithTop ℤ)`; all leaf evaluations are integers.
-/

namespace ChessMCP

/-- Piece colors, `'w'`/`'b'` in chess.js. -/
inductive Color where
  | white
  | black
deriving DecidableEq, Fintype

/-- The side that moves after the given side (turn alternation). -/
def Color.other : Color → Color
  | Color.white => Color.black
  | Color.black => Color.white

/-- Piece kinds, the one-letter codes `p n b r q k` of chess.js. -/
inductive PieceType where
  | p
  | n
  | b
  | r
  | q
  | k
deriving DecidableEq, Fintype

/-- A board-cell occupant as returned by `chess.board()`: type and color. -/
structure Piece where
  ty : PieceType
  color : Color
deriving DecidableEq

/-- The parts of the object returned by `chess.move(move)` that the move
orderer inspects: `moveObj.piece`, `moveObj.captured`, `moveObj.promotion`. -/
structure MoveObj where
  piece : PieceType
  captured : Option PieceType
  promotion : Option PieceType
deriving DecidableEq

/-- `PIECE_VALUES` from the source: material value per piece kind. -/
def PIECE_VALUES : PieceType → ℤ
  | PieceType.p => 100
  | PieceType.n => 320
  | PieceType.b => 330
  | PieceType.r => 500
  | PieceType.q => 900
  | PieceType.k => 20000

/-- `PST` from the source: the piece-square tables, row-major from the
perspective of White. -/
def PST : PieceType → List (List ℤ)
  | PieceType.p =>
    [[0,  0,  0,  0,  0,  0,  0,  0],
     [50, 50, 50, 50, 50, 50, 50, 50],
     [10, 10, 20, 30, 30, 20, 10, 10],
     [5,  5, 10, 25, 25, 10,  5,  5],
     [0,  0,  0, 20, 20,  0,  0,  0],
     [5, -5,-10,  0,  0,-10, -5,  5],
     [5, 10, 10,-20,-20, 10, 10,  5],
     [0,  0,  0,  0,  0,  0,  0,  0]]
  | PieceType.n =>
    [[-50,-40,-30,-30,-30,-30,-40,-50],
     [-40,-20,  0,  0,  0,  0,-20,-40],
     [-30,  0, 10, 15, 15, 10,  0,-30],
     [-30,  5, 15, 20, 20, 15,  5,-30],
     [-30,  0, 15, 20, 20, 15,  0,-30],
     [-30,  5, 10, 15, 15, 10,  5,-30],
     [-40,-20,  0,  5,  5,  0,-20,-40],
     [-50,-40,-30,-30,-30,-30,-40,-50]]
  | PieceType.b =>
    [[-20,-10,-10,-10,-10,-10,-10,-20],
     [-10,  0,  0,  0,  0,  0,  0,-10],
     [-10,  0, 10, 10, 10, 10,  0,-10],
     [-10,  5,  5, 10, 10,  5,  5,-10],
     [-10,  0,  5, 10, 10,  5,  0,-10],
     [-10,  5,  5,  5,  5,  5,  5,-10],
     [-10,  5,  0,  0,  0,  0,  5,-10],
     [-20,-10,-10,-10,-10,-10,-10,-20]]
  | PieceType.r =>
    [[0,  0,  0,  0,  0,  0,  0,  0],
     [5, 10, 10, 10, 10, 10, 10,  5],
     [-5,  0,  0,  0,  0,  0,  0, -5],
     [-5,  0,  0,  0,  0,  0,  0, -5],
     [-5,  0,  0,  0,  0,  0,  0, -5],
     [-5,  0,  0,  0,  0,  0,  0, -5],
     [-5,  0,  0,  0,  0,  0,  0, -5],
     [0,  0,  0,  5,  5,  0,  0,  0]]
  | PieceType.q =>
    [[-20,-10,-10, -5, -5,-10,-10,-20],
     [-10,  0,  0,  0,  0,  0,  0,-10],
     [-10,  0,  5,  5,  5,  5,  0,-10],
     [-5,  0,  5,  5,  5,  5,  0, -5],
     [0,  0,  5,  5,  5,  5,  0, -5],
     [-10,  5,  5,  5,  5,  5,  0,-10],
     [-10,  0,  5,  0,  0,  0,  0,-10],
     [-20,-10,-10, -5, -5,-10,-10,-20]]
  | PieceType.k =>
    [[-30,-40,-40,-50,-50,-40,-40,-30],
     [-30,-40,-40,-50,-50,-40,-40,-30],
     [-30,-40,-40,-50,-50,-40,-40,-30],
     [-30,-40,-40,-50,-50,-40,-40,-30],
     [-20,-30,-30,-40,-40,-30,-30,-20],
     [-10,-20,-20,-20,-20,-20,-20,-10],
     [20, 20,  0,  0,  0,  0, 20, 20],
     [20, 30, 10,  0,  0, 10, 30, 20]]

/-- `getPST(piece, row, col)` from the source: positional value, with the row
mirrored for Black. -/
def getPST (pc : Piece) (row col : Nat) : ℤ :=
  let r := if pc.color = Color.white then row else 7 - row
  ((PST pc.ty).getD r []).getD col 0

/-- The 8×8 board as returned by `chess.board()`. -/
def Board := Fin 8 → Fin 8 → Option Piece

/-- The 64 cells in the row-major order of the evaluation loops. -/
def allCells : List (Fin 8 × Fin 8) :=
  (List.finRange 8).flatMap (fun row => (List.finRange 8).map (fun col => (row, col)))

/-- The contribution of one cell to the evaluation sum: material plus
piece-square value, positive for White and negative for Black. -/
def cellScore (bd : Board) (row col : Fin 8) : ℤ :=
  match bd row col with
  | none => 0
  | some pc =>
    let totalValue := PIECE_VALUES pc.ty + getPST pc row.val col.val
    if pc.color = Color.white then totalValue else -totalValue

/-- The double loop of `evaluatePosition`: sum of `cellScore` over the board. -/
def boardScore (bd : Board) : ℤ :=
  (allCells.map (fun rc => cellScore bd rc.1 rc.2)).sum

/-- JavaScript numbers as used by the search: integers extended with
`-Infinity` (`⊥`) and `Infinity` (`⊤`). -/
abbrev EInt : Type := WithBot (WithTop ℤ)

/-- Embed an integer evaluation into `EInt`. -/
def toE (z : ℤ) : EInt := ((z : WithTop ℤ) : EInt)

/-- The abstract rules-engine interface (chess.js is out of scope and is
consumed through exactly these operations).  `play` is `chess.move` on a move
from the legal-move list: it returns the move object and the mutated state.
`playSan`, `showMove`, `ascii` and `initial` serve only the tool handlers. -/
structure Engine where
  Pos : Type
  Move : Type
  moves : Pos → List Move
  play : Pos → Move → MoveObj × Pos
  undo : Pos → Pos
  turn : Pos → Color
  board : Pos → Board
  isCheck : Pos → Bool
  isCheckmate : Pos → Bool
  isStalemate : Pos → Bool
  isDraw : Pos → Bool
  isGameOver : Pos → Bool
  initial : Pos
  playSan : Pos → String → Option (String × Pos)
  showMove : Move → String
  ascii : Pos → String

/-- The state after applying a move (the state component of `chess.move`). -/
def next (E : Engine) (s : E.Pos) (m : E.Move) : E.Pos := (E.play s m).2

/-- `evaluatePosition(chess)` from the source: checkmate sentinel signed
against the side to move, exact zero for recognized draws, otherwise
material + piece-square sum plus the mobility bonus. -/
def evaluatePosition (E : Engine) (s : E.Pos) : ℤ :=
  if E.isCheckmate s then (if E.turn s = Color.white then -99999 else 99999)
  else if E.isDraw s then 0
  else
    let score := boardScore (E.board s)
    let mobility : ℤ := ((E.moves s).length : ℤ)
    score + (if E.turn s = Color.white then mobility * 2 else -(mobility * 2))

/-- The heuristic score `orderMoves` assigns to one move, computed from the
move object and the tentatively-applied state: capture term
`10 * value(captured) - value(piece)`, promotion term, check bonus 50. -/
def moveScore (E : Engine) (s : E.Pos) (m : E.Move) : ℤ :=
  (match (E.play s m).1.captured with
   | some cap => 10 * PIECE_VALUES cap - PIECE_VALUES (E.play s m).1.piece
   | none => 0)
  + (match (E.play s m).1.promotion with
     | some pr => PIECE_VALUES pr
     | none => 0)
  + (if E.isCheck (E.play s m).2 then 50 else 0)

/-- The `moves.map(...)` loop of `orderMoves`, with the engine state threaded
through: each move is applied, scored from the resulting state, and undone. -/
def scoreMovesSt (E : Engine) : E.Pos → List E.Move → List (E.Move × ℤ) × E.Pos
  | s, [] => ([], s)
  | s, m :: rest =>
    let res := E.play s m
    let score :=
      (match res.1.captured with
       | some cap => 10 * PIECE_VALUES cap - PIECE_VALUES res.1.piece
       | none => 0)
      + (match res.1.promotion with
         | some pr => PIECE_VALUES pr
         | none => 0)
      + (if E.isCheck res.2 then 50 else 0)
    let s2 := E.undo res.2
    let recd := scoreMovesSt E s2 rest
    ((m, score) :: recd.1, recd.2)

/-- The comparator of `orderMoves`: `(a, b) => b.score - a.score` hands the
JavaScript builtin (a stable sort, external runtime code) the relation
"may come first", i.e. score at least as large. -/
def scoreGe {α : Type _} (a b : α × ℤ) : Prop := b.2 ≤ a.2

instance {α : Type _} : DecidableRel (@scoreGe α) :=
  fun a b => inferInstanceAs (Decidable (b.2 ≤ a.2))

instance {α : Type _} : IsTotal (α × ℤ) scoreGe := ⟨fun a b => le_total b.2 a.2⟩

instance {α : Type _} : IsTrans (α × ℤ) scoreGe := ⟨fun _ _ _ h1 h2 => le_trans h2 h1⟩

/-- `orderMoves(chess, moves)` from the source, state-threaded: score every
move (applying and undoing it), stable-sort descending by score (insertion
sort models the JavaScript stable builtin sort), drop the scores. -/
def orderMovesSt (E : Engine) (s : E.Pos) (ms : List E.Move) : List E.Move × E.Pos :=
  let scored := scoreMovesSt E s ms
  ((List.insertionSort scoreGe scored.1).map Prod.fst, scored.2)

/-- Pure view of `orderMoves`: the list it returns when every undo restores
the prior state (proved equal to the state-threaded version under that
assumption). -/
def orderMovesP (E : Engine) (s : E.Pos) (ms : List E.Move) : List E.Move :=
  (List.insertionSort scoreGe (ms.map (fun m => (m, moveScore E s m)))).map Prod.fst

/-- The maximizing loop of `minimax`, state-threaded: running maximum,
alpha raised to each score, cutoff (`break`) once `beta <= alpha`. -/
def maxLoopSt (E : Engine) (rec : E.Pos → EInt → EInt → EInt × E.Pos) :
    E.Pos → List E.Move → EInt → EInt → EInt → EInt × E.Pos
  | s, [], maxScore, _, _ => (maxScore, s)
  | s, m :: rest, maxScore, alpha, beta =>
    let s1 := (E.play s m).2
    let recd := rec s1 alpha beta
    let s2 := E.undo recd.2
    let maxScore2 := max maxScore recd.1
    let alpha2 := max alpha recd.1
    if beta ≤ alpha2 then (maxScore2, s2)
    else maxLoopSt E rec s2 rest maxScore2 alpha2 beta

/-- The minimizing loop of `minimax`, state-threaded. -/
def minLoopSt (E : Engine) (rec : E.Pos → EInt → EInt → EInt × E.Pos) :
    E.Pos → List E.Move → EInt → EInt → EInt → EInt × E.Pos
  | s, [], minScore, _, _ => (minScore, s)
  | s, m :: rest, minScore, alpha, beta =>
    let s1 := (E.play s m).2
    let recd := rec s1 alpha beta
    let s2 := E.undo recd.2
    let minScore2 := min minScore recd.1
    let beta2 := min beta recd.1
    if beta2 ≤ alpha then (minScore2, s2)
    else minLoopSt E rec s2 rest minScore2 alpha beta2

/-- `minimax(chess, depth, alpha, beta, isMaximizing)` from the source,
state-threaded.  Depth is a natural number: the handlers only ever call the
search with a nonnegative depth. -/
def minimaxSt (E : Engine) : Nat → E.Pos → EInt → EInt → Bool → EInt × E.Pos
  | 0, s, _, _, _ => (toE (evaluatePosition E s), s)
  | d + 1, s, alpha, beta, isMaximizing =>
    if E.isGameOver s then (toE (evaluatePosition E s), s)
    else
      let ms := E.moves s
      let ordered := if ms.length > 10 then orderMovesSt E s ms else (ms, s)
      if isMaximizing then
        maxLoopSt E (fun t a b => minimaxSt E d t a b false) ordered.2 ordered.1 ⊥ alpha beta
      else
        minLoopSt E (fun t a b => minimaxSt E d t a b true) ordered.2 ordered.1 ⊤ alpha beta

/-- Pure maximizing loop (value component of `maxLoopSt`). -/
def maxLoop (E : Engine) (rec : E.Pos → EInt → EInt → EInt) :
    E.Pos → List E.Move → EInt → EInt → EInt → EInt
  | _, [], maxScore, _, _ => maxScore
  | s, m :: rest, maxScore, alpha, beta =>
    let score := rec (next E s m) alpha beta
    let maxScore2 := max maxScore score
    let alpha2 := max alpha score
    if beta ≤ alpha2 then maxScore2
    else maxLoop E rec s rest maxScore2 alpha2 beta

/-- Pure minimizing loop (value component of `minLoopSt`). -/
def minLoop (E : Engine) (rec : E.Pos → EInt → EInt → EInt) :
    E.Pos → List E.Move → EInt → EInt → EInt → EInt
  | _, [], minScore, _, _ => minScore
  | s, m :: rest, minScore, alpha, beta =>
    let score := rec (next E s m) alpha beta
    let minScore2 := min minScore score
    let beta2 := min beta score
    if beta2 ≤ alpha then minScore2
    else minLoop E rec s rest minScore2 alpha beta2

/-- The value computed by `minimax` when the move list explored at every node
is supplied by an arbitrary ordering policy `ord` (the policy of the source is
`mainOrd`; claim C4 varies it over arbitrary permutations). -/
def minimaxOrd (E : Engine) (ord : E.Pos → List E.Move → List E.Move) :
    Nat → E.Pos → EInt → EInt → Bool → EInt
  | 0, s, _, _, _ => toE (evaluatePosition E s)
  | d + 1, s, alpha, beta, isMaximizing =>
    if E.isGameOver s then toE (evaluatePosition E s)
    else
      let ordered := ord s (E.moves s)
      if isMaximizing then
        maxLoop E (fun t a b => minimaxOrd E ord d t a b false) s ordered ⊥ alpha beta
      else
        minLoop E (fun t a b => minimaxOrd E ord d t a b true) s ordered ⊤ alpha beta

/-- The ordering policy of the source inside `minimax`: rank via `orderMoves` only
when more than 10 moves are available. -/
def mainOrd (E : Engine) : E.Pos → List E.Move → List E.Move :=
  fun s ms => if ms.length > 10 then orderMovesP E s ms else ms

/-- Pure view of `minimax`: value component of `minimaxSt` (proved equal
under the undo assumption). -/
def minimaxP (E : Engine) : Nat → E.Pos → EInt → EInt → Bool → EInt :=
  minimaxOrd E (mainOrd E)

/-- Modelled from the spec: the unpruned full minimax over the same
depth-limited game tree ("the value computed by an unpruned full minimax over
the same tree"), the reference point of claim C1.  At a maximizing node it is
the maximum of the values of all children, with no window and no cutoff. -/
def fullMinimax (E : Engine) : Nat → E.Pos → Bool → EInt
  | 0, s, _ => toE (evaluatePosition E s)
  | d + 1, s, isMaximizing =>
    if E.isGameOver s then toE (evaluatePosition E s)
    else if isMaximizing then
      ((E.moves s).map (fun m => fullMinimax E d (next E s m) false)).foldr max ⊥
    else
      ((E.moves s).map (fun m => fullMinimax E d (next E s m) true)).foldr min ⊤

/-- The root loop of `getBestMove`, state-threaded: evaluate each ranked root
move with a fresh full window and keep the move on a strict improvement. -/
def bestLoopSt (E : Engine) (d : Nat) (isMax : Bool) :
    E.Pos → List E.Move → E.Move → EInt → E.Move × E.Pos
  | s, [], best, _ => (best, s)
  | s, m :: rest, best, bestScore =>
    let s1 := (E.play s m).2
    let recd := minimaxSt E d s1 ⊥ ⊤ (!isMax)
    let s2 := E.undo recd.2
    if isMax then
      if bestScore < recd.1 then bestLoopSt E d isMax s2 rest m recd.1
      else bestLoopSt E d isMax s2 rest best bestScore
    else
      if recd.1 < bestScore then bestLoopSt E d isMax s2 rest m recd.1
      else bestLoopSt E d isMax s2 rest best bestScore

/-- `getBestMove(chess, depth)` from the source, state-threaded: `none` when
no legal move exists, otherwise the best ranked root move (seeded from the
head of the ranked list, updated only on strict improvement). -/
def getBestMoveSt (E : Engine) (s : E.Pos) (depth : Nat) : Option E.Move × E.Pos :=
  if (E.moves s).length = 0 then (none, s)
  else
    let ordered := orderMovesSt E s (E.moves s)
    let isMax := E.turn s = Color.white
    match ordered.1 with
    | [] => (none, ordered.2)
    | m0 :: _ =>
      let looped := bestLoopSt E (depth - 1) isMax ordered.2 ordered.1 m0
        (if isMax then ⊥ else ⊤)
      (some looped.1, looped.2)

/-- Pure root loop (value component of `bestLoopSt`). -/
def bestLoopP (E : Engine) (d : Nat) (isMax : Bool) (s : E.Pos) :
    List E.Move → E.Move → EInt → E.Move
  | [], best, _ => best
  | m :: rest, best, bestScore =>
    let score := minimaxP E d (next E s m) ⊥ ⊤ (!isMax)
    if isMax then
      if bestScore < score then bestLoopP E d isMax s rest m score
      else bestLoopP E d isMax s rest best bestScore
    else
      if score < bestScore then bestLoopP E d isMax s rest m score
      else bestLoopP E d isMax s rest best bestScore

/-- Pure view of `getBestMove` (proved equal to the state-threaded version
under the undo assumption). -/
def getBestMoveP (E : Engine) (s : E.Pos) (depth : Nat) : Option E.Move :=
  if (E.moves s).length = 0 then none
  else
    let ordered := orderMovesP E s (E.moves s)
    let isMax := E.turn s = Color.white
    match ordered with
    | [] => none
    | m0 :: _ =>
      some (bestLoopP E (depth - 1) isMax s ordered m0 (if isMax then ⊥ else ⊤))

/-- The chess-specific facts about the external rules engine that the source
relies on.  Every field is a property of chess.js on legal inputs: undo
reverts the most recent legal move; a legal move passes the turn; a
non-terminal position has a legal move; checkmate ends the game; a finished
game is checkmate or a recognized draw (stalemate counts as a draw in
`chess.isDraw()`); a draw is not a checkmate; pawns never promote to kings. -/
structure Lawful (E : Engine) : Prop where
  undo_play : ∀ s m, m ∈ E.moves s → E.undo (E.play s m).2 = s
  turn_play : ∀ s m, m ∈ E.moves s → E.turn (E.play s m).2 = (E.turn s).other
  moves_ne : ∀ s, E.isGameOver s = false → E.moves s ≠ []
  mate_over : ∀ s, E.isCheckmate s = true → E.isGameOver s = true
  over_mate_or_draw : ∀ s, E.isGameOver s = true → E.isCheckmate s = true ∨ E.isDraw s = true
  draw_not_mate : ∀ s, E.isDraw s = true → E.isCheckmate s = false
  stalemate_draw : ∀ s, E.isStalemate s = true → E.isDraw s = true
  promo_not_king : ∀ s m, m ∈ E.moves s → (E.play s m).1.promotion ≠ some PieceType.k

/-- The result of one MCP tool call: the text content and the `isError` flag. -/
structure ToolResult where
  text : String
  isError : Bool
deriving DecidableEq

/-- The tool calls dispatched by the `CallToolRequestSchema` handler; `other`
is the `default` branch for an unrecognized tool name. -/
inductive ToolCall where
  | new_game (gameId : String)
  | get_legal_moves (gameId : String)
  | make_move (gameId : String) (mv : String)
  | get_best_move (gameId : String) (depth : Option ℤ)
  | get_board (gameId : String)
  | other (toolName : String)

/-- `games.get(args.game_id)` on the games map (modelled as an association
list keyed by game id). -/
def findGame (E : Engine) (games : List (String × E.Pos)) (gameId : String) :
    Option E.Pos :=
  (games.find? (fun e => e.1 == gameId)).map (fun e => e.2)

/-- `games.set(id, chess)`: replace the entry when present, append otherwise. -/
def setGame (E : Engine) (games : List (String × E.Pos)) (gameId : String) (s : E.Pos) :
    List (String × E.Pos) :=
  match games.find? (fun e => e.1 == gameId) with
  | some _ => games.map (fun e => if e.1 == gameId then (gameId, s) else e)
  | none => games ++ [(gameId, s)]

/-- `args.depth || 3`: a missing (or zero, since `0` is falsy) depth argument
defaults to 3. -/
def requestedDepth (d : Option ℤ) : ℤ :=
  match d with
  | none => 3
  | some v => if v = 0 then 3 else v

/-- The clamp of the primary handler: `Math.min(args.depth || 3, 3)`. -/
def clampDepth (d : Option ℤ) : ℤ := min (requestedDepth d) 3

/-- The clamp of the duplicate handler: `Math.min(args.depth || 3, 4)`. -/
def clampDepthDup (d : Option ℤ) : ℤ := min (requestedDepth d) 4

/-- The `CallToolRequestSchema` handler of the primary copy: dispatch on the
tool name, answer `Game not found` (isError) when the id is absent, and
otherwise run the tool against the stored position.  The in-place mutation of
the stored `Chess` object is modelled by writing the final engine state back
into the map. -/
def handleToolCall (E : Engine) (games : List (String × E.Pos)) :
    ToolCall → ToolResult × List (String × E.Pos)
  | ToolCall.new_game gid =>
    (⟨"New game created with ID: " ++ gid, false⟩, setGame E games gid E.initial)
  | ToolCall.get_legal_moves gid =>
    match findGame E games gid with
    | none => (⟨"Game not found", true⟩, games)
    | some s => (⟨String.intercalate ", " ((E.moves s).map E.showMove), false⟩, games)
  | ToolCall.make_move gid mv =>
    match findGame E games gid with
    | none => (⟨"Game not found", true⟩, games)
    | some s =>
      match E.playSan s mv with
      | some sanNew =>
        (⟨"Move " ++ sanNew.1 ++ " played successfully", false⟩,
          setGame E games gid sanNew.2)
      | none => (⟨"Invalid move: " ++ mv, true⟩, games)
  | ToolCall.get_best_move gid d =>
    match findGame E games gid with
    | none => (⟨"Game not found", true⟩, games)
    | some s =>
      let bm := getBestMoveSt E s (clampDepth d).toNat
      (⟨match bm.1 with
        | some m => E.showMove m
        | none => "No moves available", false⟩, setGame E games gid bm.2)
  | ToolCall.get_board gid =>
    match findGame E games gid with
    | none => (⟨"Game not found", true⟩, games)
    | some s => (⟨E.ascii s, false⟩, games)
  | ToolCall.other toolName =>
    (⟨"Unknown tool: " ++ toolName, true⟩, games)

/-- Count of the cells of `l` holding a piece of the given kind and color. -/
def countIn (bd : Board) (l : List (Fin 8 × Fin 8)) (t : PieceType) (c : Color) : ℕ :=
  l.countP (fun rc => decide (bd rc.1 rc.2 = some ⟨t, c⟩))

/-- Count of pieces of one kind and color on the whole board. -/
def countPiece (bd : Board) (t : PieceType) (c : Color) : ℕ :=
  countIn bd allCells t c

/-- Promotion accounting for one side: every piece beyond the initial set
(one queen, two rooks, two bishops, two knights) must come from a promoted
pawn, so pawns still on the board plus all excess pieces never exceed 8. -/
def promoCount (bd : Board) (c : Color) : ℕ :=
  countPiece bd PieceType.p c + (countPiece bd PieceType.q c - 1)
    + (countPiece bd PieceType.r c - 2) + (countPiece bd PieceType.b c - 2)
    + (countPiece bd PieceType.n c - 2)

/-- Necessary conditions for a position reachable in a real chess game: both
kings on the board (exactly one each) and the promotion accounting bound for
each side. -/
def LegalBoard (bd : Board) : Prop :=
  countPiece bd PieceType.k Color.white = 1 ∧ countPiece bd PieceType.k Color.black = 1 ∧
    promoCount bd Color.white ≤ 8 ∧ promoCount bd Color.black ≤ 8

/-- Aggregate upper bound for the cell scores of a cell list, phrased through
the piece counts: a white piece contributes at most its value plus 50 (the
largest piece-square entry), a black piece at most 50 minus its value. -/
def upperOf (bd : Board) (l : List (Fin 8 × Fin 8)) : ℤ :=
  150 * countIn bd l PieceType.p Color.white + 370 * countIn bd l PieceType.n Color.white
    + 380 * countIn bd l PieceType.b Color.white + 550 * countIn bd l PieceType.r Color.white
    + 950 * countIn bd l PieceType.q Color.white + 20050 * countIn bd l PieceType.k Color.white
    - (50 * countIn bd l PieceType.p Color.black + 270 * countIn bd l PieceType.n Color.black
      + 280 * countIn bd l PieceType.b Color.black + 450 * countIn bd l PieceType.r Color.black
      + 850 * countIn bd l PieceType.q Color.black + 19950 * countIn bd l PieceType.k Color.black)

/-- Aggregate lower bound for the cell scores (mirror image of `upperOf`). -/
def lowerOf (bd : Board) (l : List (Fin 8 × Fin 8)) : ℤ :=
  50 * countIn bd l PieceType.p Color.white + 270 * countIn bd l PieceType.n Color.white
    + 280 * countIn bd l PieceType.b Color.white + 450 * countIn bd l PieceType.r Color.white
    + 850 * countIn bd l PieceType.q Color.white + 19950 * countIn bd l PieceType.k Color.white
    - (150 * countIn bd l PieceType.p Color.black + 370 * countIn bd l PieceType.n Color.black
      + 380 * countIn bd l PieceType.b Color.black + 550 * countIn bd l PieceType.r Color.black
      + 950 * countIn bd l PieceType.q Color.black + 20050 * countIn bd l PieceType.k Color.black)

/-- Fail-soft agreement of a search result `r` with the exact value `v`
relative to a window `(a, b)`: a result at or below alpha upper-bounds the
exact value, a result at or above beta lower-bounds it, and a result strictly
inside the window is exact. -/
def Appx (r v a b : EInt) : Prop :=
  (r ≤ a → v ≤ r) ∧ (b ≤ r → r ≤ v) ∧ (a < r → r < b → r = v)

/-- A five-state lawful rules-engine instance used for concrete evaluation.
State 0 (White to move) has two legal moves: move 0 is a checking knight move
that delivers immediate checkmate (state 1), move 1 is a pawn-takes-queen
capture leading to state 2, from which the only Black move (state 3) lets White
mate by force (state 4).  So state 0 has exactly one mate-in-one, while the
queen capture is a forced mate-in-two that the move orderer ranks first. -/
@[reducible] def Cex : Engine where
  Pos := Fin 5
  Move := Fin 2
  moves := fun s =>
    if s = 0 then [0, 1] else if s = 2 then [0] else if s = 3 then [0] else []
  play := fun s m =>
    if s = 0 then
      (if m = 0 then (⟨PieceType.n, none, none⟩, 1) else (⟨PieceType.p, some PieceType.q, none⟩, 2))
    else if s = 2 then (⟨PieceType.r, none, none⟩, 3)
    else if s = 3 then (⟨PieceType.q, none, none⟩, 4)
    else (⟨PieceType.p, none, none⟩, s)
  undo := fun s =>
    if s = 1 then 0 else if s = 2 then 0 else if s = 3 then 2 else if s = 4 then 3 else 0
  turn := fun s => if s = 0 then Color.white else if s = 3 then Color.white else Color.black
  board := fun _ => fun _ _ => none
  isCheck := fun s => decide (s = 1)
  isCheckmate := fun s => decide (s = 1 ∨ s = 4)
  isStalemate := fun _ => false
  isDraw := fun _ => false
  isGameOver := fun s => decide (s = 1 ∨ s = 4)
  initial := 0
  playSan := fun _ _ => none
  showMove := fun _ => ""
  ascii := fun _ => ""

/-- A two-king board used to instantiate the evaluation-bound claim. -/
@[reducible] def toyBoard : Board := fun r c =>
  if r = 7 ∧ c = 4 then some ⟨PieceType.k, Color.white⟩
  else if r = 0 ∧ c = 4 then some ⟨PieceType.k, Color.black⟩
  else none

/-- A four-state engine instance exercising the branches of the evaluator:
state 0 is checkmate with White to move, state 1 a recognized draw,
state 2 a stalemate (hence a recognized draw), state 3 an ordinary position
whose board is `toyBoard`. -/
@[reducible] def EvalToy : Engine where
  Pos := Fin 4
  Move := Fin 1
  moves := fun _ => []
  play := fun s _ => (⟨PieceType.p, none, none⟩, s)
  undo := id
  turn := fun s => if s = 0 then Color.white else Color.black
  board := fun s => if s = 3 then toyBoard else fun _ _ => none
  isCheck := fun _ => false
  isCheckmate := fun s => decide (s = 0)
  isStalemate := fun s => decide (s = 2)
  isDraw := fun s => decide (s = 1 ∨ s = 2)
  isGameOver := fun s => decide (s = 0 ∨ s = 1 ∨ s = 2)
  initial := 3
  playSan := fun _ _ => none
  showMove := fun _ => ""
  ascii := fun _ => ""

/-! ## Basic facts about the extended integers -/

theorem toE_le_toE {x y : ℤ} : toE x ≤ toE y ↔ x ≤ y := by
  simp [toE]

theorem toE_lt_toE {x y : ℤ} : toE x < toE y ↔ x < y := by
  simp [toE]

theorem bot_lt_toE (x : ℤ) : (⊥ : EInt) < toE x := by
  exact WithBot.bot_lt_coe _

theorem toE_lt_top (x : ℤ) : toE x < (⊤ : EInt) := by
  simp [toE]
  exact WithBot.coe_lt_coe.mpr (WithTop.coe_lt_top x)

/-! ## The move orderer -/

theorem scoreMovesSt_fst (E : Engine) (ms : List E.Move) :
    ∀ s : E.Pos, ((scoreMovesSt E s ms).1).map Prod.fst = ms := by
  induction ms with
  | nil => intro s; rfl
  | cons m rest ih => intro s; simp [scoreMovesSt, ih]

/-- Independently of any undo discipline, the list produced by `orderMoves`
is a permutation of the input move list. -/
theorem orderMovesSt_fst_perm (E : Engine) (s : E.Pos) (ms : List E.Move) :
    ((orderMovesSt E s ms).1).Perm ms := by
  have h1 := (List.perm_insertionSort scoreGe (scoreMovesSt E s ms).1).map Prod.fst
  rw [scoreMovesSt_fst] at h1
  exact h1

theorem scoreMovesSt_eq (E : Engine)
    (h : ∀ s m, m ∈ E.moves s → E.undo (E.play s m).2 = s) (s : E.Pos) :
    ∀ ms : List E.Move, (∀ m ∈ ms, m ∈ E.moves s) →
      scoreMovesSt E s ms = (ms.map (fun m => (m, moveScore E s m)), s) := by
  intro ms
  induction ms with
  | nil => intro _; rfl
  | cons m rest ih =>
    intro hsub
    have hm : m ∈ E.moves s := hsub m (List.mem_cons_self m rest)
    have hrest : ∀ x ∈ rest, x ∈ E.moves s := fun x hx => hsub x (List.mem_cons_of_mem m hx)
    simp only [scoreMovesSt, h s m hm, ih hrest, moveScore, List.map_cons]

theorem orderMovesSt_eq (E : Engine)
    (h : ∀ s m, m ∈ E.moves s → E.undo (E.play s m).2 = s) (s : E.Pos)
    (ms : List E.Move) (hsub : ∀ m ∈ ms, m ∈ E.moves s) :
    orderMovesSt E s ms = (orderMovesP E s ms, s) := by
  simp only [orderMovesSt, orderMovesP, scoreMovesSt_eq E h s ms hsub]

theorem orderMovesP_perm (E : Engine) (s : E.Pos) (ms : List E.Move) :
    (orderMovesP E s ms).Perm ms := by
  unfold orderMovesP
  have h1 := (List.perm_insertionSort scoreGe
    (ms.map (fun m => (m, moveScore E s m)))).map Prod.fst
  rw [List.map_map] at h1
  have h2 : List.map (Prod.fst ∘ fun m => (m, moveScore E s m)) ms = ms :=
    List.map_id'' (fun _ => rfl) ms
  rw [h2] at h1
  exact h1

theorem orderMovesP_sorted (E : Engine) (s : E.Pos) (ms : List E.Move) :
    (orderMovesP E s ms).Pairwise
      (fun m1 m2 => moveScore E s m2 ≤ moveScore E s m1) := by
  unfold orderMovesP
  rw [List.pairwise_map]
  have hsorted := List.sorted_insertionSort scoreGe (ms.map (fun m => (m, moveScore E s m)))
  have hmem : ∀ x ∈ List.insertionSort scoreGe (ms.map (fun m => (m, moveScore E s m))),
      x.2 = moveScore E s x.1 := by
    intro x hx
    have hx2 : x ∈ ms.map (fun m => (m, moveScore E s m)) :=
      (List.perm_insertionSort scoreGe _).mem_iff.mp hx
    obtain ⟨m, _, rfl⟩ := List.mem_map.mp hx2
    rfl
  refine hsorted.imp_of_mem ?_
  intro a b ha hb hab
  have h2 := hmem a ha
  have h3 := hmem b hb
  simpa [scoreGe, h2, h3] using hab

/-- The head of a descending-sorted permutation is any member whose score
strictly dominates the score of every distinct member. -/
theorem orderMovesP_head (E : Engine) (s : E.Pos) (ms : List E.Move)
    (m : E.Move) (hm : m ∈ ms)
    (hmax : ∀ x ∈ ms, x ≠ m → moveScore E s x < moveScore E s m) :
    (orderMovesP E s ms).head? = some m := by
  have hperm := orderMovesP_perm E s ms
  have hmem : m ∈ orderMovesP E s ms := hperm.mem_iff.mpr hm
  have hsorted := orderMovesP_sorted E s ms
  cases hord : orderMovesP E s ms with
  | nil => rw [hord] at hmem; exact absurd hmem (List.not_mem_nil m)
  | cons h0 rest =>
    rw [hord] at hmem hsorted hperm
    by_cases hh : h0 = m
    · simp [hh]
    · have hh0 : h0 ∈ ms := hperm.mem_iff.mp (List.mem_cons_self h0 rest)
      have hlt := hmax h0 hh0 hh
      have hm2 : m ∈ rest := by
        rcases List.mem_cons.mp hmem with h | h
        · exact absurd h.symm hh
        · exact h
      have hge := (List.pairwise_cons.mp hsorted).1 m hm2
      exact absurd hge (not_le.mpr hlt)

/-! ## Equivalence of the state-threaded search with its pure view -/

theorem mainOrd_mem (E : Engine) (s : E.Pos) (ms : List E.Move) :
    ∀ m ∈ mainOrd E s ms, m ∈ ms := by
  intro m hm
  unfold mainOrd at hm
  by_cases hlen : ms.length > 10
  · rw [if_pos hlen] at hm
    exact (orderMovesP_perm E s ms).mem_iff.mp hm
  · rwa [if_neg hlen] at hm

theorem maxLoopSt_eq (E : Engine)
    (h : ∀ s m, m ∈ E.moves s → E.undo (E.play s m).2 = s)
    (recSt : E.Pos → EInt → EInt → EInt × E.Pos) (recP : E.Pos → EInt → EInt → EInt)
    (hrec : ∀ t a b, recSt t a b = (recP t a b, t)) (s : E.Pos) :
    ∀ l : List E.Move, (∀ m ∈ l, m ∈ E.moves s) → ∀ mx a b,
      maxLoopSt E recSt s l mx a b = (maxLoop E recP s l mx a b, s) := by
  intro l
  induction l with
  | nil => intro _ mx a b; rfl
  | cons m rest ih =>
    intro hsub mx a b
    have hm : m ∈ E.moves s := hsub m (List.mem_cons_self m rest)
    have hrest : ∀ x ∈ rest, x ∈ E.moves s := fun x hx => hsub x (List.mem_cons_of_mem m hx)
    simp only [maxLoopSt, maxLoop, hrec, h s m hm, next]
    split
    · rfl
    · exact ih hrest _ _ _

theorem minLoopSt_eq (E : Engine)
    (h : ∀ s m, m ∈ E.moves s → E.undo (E.play s m).2 = s)
    (recSt : E.Pos → EInt → EInt → EInt × E.Pos) (recP : E.Pos → EInt → EInt → EInt)
    (hrec : ∀ t a b, recSt t a b = (recP t a b, t)) (s : E.Pos) :
    ∀ l : List E.Move, (∀ m ∈ l, m ∈ E.moves s) → ∀ mn a b,
      minLoopSt E recSt s l mn a b = (minLoop E recP s l mn a b, s) := by
  intro l
  induction l with
  | nil => intro _ mn a b; rfl
  | cons m rest ih =>
    intro hsub mn a b
    have hm : m ∈ E.moves s := hsub m (List.mem_cons_self m rest)
    have hrest : ∀ x ∈ rest, x ∈ E.moves s := fun x hx => hsub x (List.mem_cons_of_mem m hx)
    simp only [minLoopSt, minLoop, hrec, h s m hm, next]
    split
    · rfl
    · exact ih hrest _ _ _

theorem minimaxSt_eq (E : Engine)
    (h : ∀ s m, m ∈ E.moves s → E.undo (E.play s m).2 = s) :
    ∀ (d : Nat) (s : E.Pos) (a b : EInt) (f : Bool),
      minimaxSt E d s a b f = (minimaxP E d s a b f, s) := by
  intro d
  induction d with
  | zero => intro s a b f; rfl
  | succ d ih =>
    intro s a b f
    have hord : (if (E.moves s).length > 10 then orderMovesSt E s (E.moves s)
        else (E.moves s, s)) = (mainOrd E s (E.moves s), s) := by
      unfold mainOrd
      by_cases hlen : (E.moves s).length > 10
      · simp only [if_pos hlen, orderMovesSt_eq E h s (E.moves s) (fun x hx => hx)]
      · simp only [if_neg hlen]
    show minimaxSt E (d + 1) s a b f = (minimaxOrd E (mainOrd E) (d + 1) s a b f, s)
    simp only [minimaxSt, minimaxOrd]
    by_cases hover : E.isGameOver s
    · simp [hover]
    · simp only [hover, if_false, Bool.false_eq_true]
      rw [hord]
      cases f with
      | true =>
        simp only [if_true]
        exact maxLoopSt_eq E h _ _ (fun t a b => ih t a b false) s _
          (fun x hx => mainOrd_mem E s (E.moves s) x hx) _ _ _
      | false =>
        simp only [if_false, Bool.false_eq_true]
        exact minLoopSt_eq E h _ _ (fun t a b => ih t a b true) s _
          (fun x hx => mainOrd_mem E s (E.moves s) x hx) _ _ _

theorem bestLoopSt_eq (E : Engine)
    (h : ∀ s m, m ∈ E.moves s → E.undo (E.play s m).2 = s)
    (d : Nat) (isMax : Bool) (s : E.Pos) :
    ∀ l : List E.Move, (∀ m ∈ l, m ∈ E.moves s) → ∀ best bs,
      bestLoopSt E d isMax s l best bs = (bestLoopP E d isMax s l best bs, s) := by
  intro l
  induction l with
  | nil => intro _ best bs; rfl
  | cons m rest ih =>
    intro hsub best bs
    have hm : m ∈ E.moves s := hsub m (List.mem_cons_self m rest)
    have hrest : ∀ x ∈ rest, x ∈ E.moves s := fun x hx => hsub x (List.mem_cons_of_mem m hx)
    simp only [bestLoopSt, bestLoopP, minimaxSt_eq E h, h s m hm, next]
    split
    · split
      · exact ih hrest _ _
      · exact ih hrest _ _
    · split
      · exact ih hrest _ _
      · exact ih hrest _ _

theorem getBestMoveSt_eq (E : Engine)
    (h : ∀ s m, m ∈ E.moves s → E.undo (E.play s m).2 = s)
    (s : E.Pos) (depth : Nat) :
    getBestMoveSt E s depth = (getBestMoveP E s depth, s) := by
  unfold getBestMoveSt getBestMoveP
  by_cases hlen : (E.moves s).length = 0
  · simp [hlen]
  · simp only [if_neg hlen, orderMovesSt_eq E h s (E.moves s) (fun x hx => hx)]
    have hsub : ∀ x ∈ orderMovesP E s (E.moves s), x ∈ E.moves s :=
      fun x hx => (orderMovesP_perm E s (E.moves s)).mem_iff.mp hx
    cases hord : orderMovesP E s (E.moves s) with
    | nil => simp
    | cons m0 rest =>
      rw [hord] at hsub
      simp only [bestLoopSt_eq E h _ _ s _ hsub]

/-! ## Fail-soft correctness of the pruned search -/

theorem le_foldr_max {μ : Type _} (val : μ → EInt) (l : List μ) (x : EInt) :
    x ≤ l.foldr (fun m acc => max (val m) acc) x := by
  induction l with
  | nil => exact le_refl x
  | cons m rest ih => exact le_trans ih (le_max_right _ _)

theorem foldr_min_le {μ : Type _} (val : μ → EInt) (l : List μ) (x : EInt) :
    l.foldr (fun m acc => min (val m) acc) x ≤ x := by
  induction l with
  | nil => exact le_refl x
  | cons m rest ih => exact le_trans (min_le_right _ _) ih

theorem foldr_max_init {μ : Type _} (val : μ → EInt) (l : List μ) (x : EInt) :
    l.foldr (fun m acc => max (val m) acc) x
      = max (l.foldr (fun m acc => max (val m) acc) ⊥) x := by
  induction l with
  | nil => exact (max_eq_right bot_le).symm
  | cons m rest ih => rw [List.foldr_cons, List.foldr_cons, ih, max_assoc]

theorem foldr_min_init {μ : Type _} (val : μ → EInt) (l : List μ) (x : EInt) :
    l.foldr (fun m acc => min (val m) acc) x
      = min (l.foldr (fun m acc => min (val m) acc) ⊤) x := by
  induction l with
  | nil => exact (min_eq_right le_top).symm
  | cons m rest ih => rw [List.foldr_cons, List.foldr_cons, ih, min_assoc]

theorem foldr_max_perm {μ : Type _} (val : μ → EInt) {l1 l2 : List μ}
    (h : l1.Perm l2) (x : EInt) :
    l1.foldr (fun m acc => max (val m) acc) x
      = l2.foldr (fun m acc => max (val m) acc) x := by
  induction h with
  | nil => rfl
  | cons m _ ih => rw [List.foldr_cons, List.foldr_cons, ih]
  | swap m n l => exact max_left_comm _ _ _
  | trans _ _ ih1 ih2 => exact ih1.trans ih2

theorem foldr_min_perm {μ : Type _} (val : μ → EInt) {l1 l2 : List μ}
    (h : l1.Perm l2) (x : EInt) :
    l1.foldr (fun m acc => min (val m) acc) x
      = l2.foldr (fun m acc => min (val m) acc) x := by
  induction h with
  | nil => rfl
  | cons m _ ih => rw [List.foldr_cons, List.foldr_cons, ih]
  | swap m n l => exact min_left_comm _ _ _
  | trans _ _ ih1 ih2 => exact ih1.trans ih2

/-- The maximizing loop of the pruned search fail-soft-approximates the
maximum of the child values folded onto the running maximum, relative to the
alpha at node entry. -/
theorem maxLoop_appx (E : Engine) (rec : E.Pos → EInt → EInt → EInt) (s : E.Pos)
    (val : E.Move → EInt) (b : EInt) :
    ∀ l : List E.Move,
      (∀ m ∈ l, ∀ a1 b1 : EInt, a1 < b1 → Appx (rec (next E s m) a1 b1) (val m) a1 b1) →
      ∀ mx a a0 : EInt, a = max a0 mx → a0 < b → a < b →
        Appx (maxLoop E rec s l mx a b)
          (l.foldr (fun m acc => max (val m) acc) mx) a0 b := by
  intro l
  induction l with
  | nil =>
    intro _ mx a a0 _ _ _
    exact ⟨fun _ => le_refl _, fun _ => le_refl _, fun _ _ => rfl⟩
  | cons m rest ih =>
    intro hrec mx a a0 ha ha0b hab
    obtain ⟨hm1, hm2, hm3⟩ := hrec m (List.mem_cons_self m rest) a b hab
    have hrest : ∀ x ∈ rest, ∀ a1 b1 : EInt, a1 < b1 →
        Appx (rec (next E s x) a1 b1) (val x) a1 b1 :=
      fun x hx => hrec x (List.mem_cons_of_mem m hx)
    rw [List.foldr_cons]
    simp only [maxLoop, next]
    set sc := rec (E.play s m).2 a b with hscdef
    by_cases hcut : b ≤ max a sc
    · rw [if_pos hcut]
      have hbsc : b ≤ sc := by
        rcases le_max_iff.mp hcut with hc | hc
        · exact absurd hc (not_le.mpr hab)
        · exact hc
      have hscv : sc ≤ val m := hm2 hbsc
      refine ⟨?_, ?_, ?_⟩
      · intro hle
        exact absurd (le_trans hbsc (le_trans (le_max_right mx sc) hle)) (not_le.mpr ha0b)
      · intro _
        exact max_le (le_trans (le_foldr_max val rest mx) (le_max_right _ _))
          (le_trans hscv (le_max_left _ _))
      · intro _ hrb
        exact absurd hrb (not_lt.mpr (le_trans hbsc (le_max_right mx sc)))
    · rw [if_neg hcut]
      have hscb : max a sc < b := not_le.mp hcut
      have ha' : max a sc = max a0 (max mx sc) := by rw [ha, max_assoc]
      have hIH := ih hrest (max mx sc) (max a sc) a0 ha' ha0b hscb
      by_cases hasc : a < sc
      · have hscb2 : sc < b := lt_of_le_of_lt (le_max_right a sc) hscb
        have hveq : sc = val m := hm3 hasc hscb2
        have heq : List.foldr (fun x acc => max (val x) acc) (max mx sc) rest
            = max (val m) (List.foldr (fun x acc => max (val x) acc) mx rest) := by
          rw [foldr_max_init val rest (max mx sc), foldr_max_init val rest mx, ← hveq]
          rw [max_comm mx sc, ← max_assoc, max_comm _ sc, max_assoc]
        rw [heq] at hIH
        exact hIH
      · have hsca : sc ≤ a := not_lt.mp hasc
        have hva : val m ≤ sc := hm1 hsca
        obtain ⟨k1, k2, k3⟩ := hIH
        have hS1 := foldr_max_init val rest (max mx sc)
        have hS2 := foldr_max_init val rest mx
        set S := List.foldr (fun x acc => max (val x) acc) (⊥ : EInt) rest with hSdef
        have hmxVT : mx ≤ max (val m) (List.foldr (fun x acc => max (val x) acc) mx rest) :=
          le_trans (le_foldr_max val rest mx) (le_max_right _ _)
        have hVTle : max (val m) (List.foldr (fun x acc => max (val x) acc) mx rest)
            ≤ List.foldr (fun x acc => max (val x) acc) (max mx sc) rest := by
          rw [hS1, hS2]
          refine max_le ?_ (max_le ?_ ?_)
          · exact le_trans hva (le_trans (le_max_right mx sc) (le_max_right S _))
          · exact le_max_left S _
          · exact le_trans (le_max_left mx sc) (le_max_right S _)
        have hVIHle : List.foldr (fun x acc => max (val x) acc) (max mx sc) rest
            ≤ max a0 (max (val m) (List.foldr (fun x acc => max (val x) acc) mx rest)) := by
          rw [hS1]
          refine max_le ?_ (max_le ?_ ?_)
          · refine le_trans ?_ (le_max_right a0 _)
            rw [hS2]
            exact le_trans (le_max_left S mx) (le_max_right _ _)
          · exact le_trans hmxVT (le_max_right a0 _)
          · refine le_trans hsca ?_
            rw [ha]
            exact max_le_max (le_refl a0) hmxVT
        refine ⟨?_, ?_, ?_⟩
        · intro hRa0
          exact le_trans hVTle (k1 hRa0)
        · intro hbR
          have hR := le_trans (k2 hbR) hVIHle
          have ha0R : a0 < maxLoop E rec s rest (max mx sc) (max a sc) b :=
            lt_of_lt_of_le ha0b hbR
          exact (le_max_iff.mp hR).resolve_left (not_le.mpr ha0R)
        · intro ha0R hRb
          have hReq := k3 ha0R hRb
          refine le_antisymm ?_ (le_trans hVTle (le_of_eq hReq.symm))
          have hR : maxLoop E rec s rest (max mx sc) (max a sc) b
              ≤ max a0 (max (val m) (List.foldr (fun x acc => max (val x) acc) mx rest)) :=
            le_trans (le_of_eq hReq) hVIHle
          exact (le_max_iff.mp hR).resolve_left (not_le.mpr ha0R)

/-- The minimizing loop of the pruned search fail-soft-approximates the
minimum of the child values folded onto the running minimum, relative to the
beta at node entry. -/
theorem minLoop_appx (E : Engine) (rec : E.Pos → EInt → EInt → EInt) (s : E.Pos)
    (val : E.Move → EInt) (a : EInt) :
    ∀ l : List E.Move,
      (∀ m ∈ l, ∀ a1 b1 : EInt, a1 < b1 → Appx (rec (next E s m) a1 b1) (val m) a1 b1) →
      ∀ mn b b0 : EInt, b = min b0 mn → a < b0 → a < b →
        Appx (minLoop E rec s l mn a b)
          (l.foldr (fun m acc => min (val m) acc) mn) a b0 := by
  intro l
  induction l with
  | nil =>
    intro _ mn b b0 _ _ _
    exact ⟨fun _ => le_refl _, fun _ => le_refl _, fun _ _ => rfl⟩
  | cons m rest ih =>
    intro hrec mn b b0 hb hab0 hab
    obtain ⟨hm1, hm2, hm3⟩ := hrec m (List.mem_cons_self m rest) a b hab
    have hrest : ∀ x ∈ rest, ∀ a1 b1 : EInt, a1 < b1 →
        Appx (rec (next E s x) a1 b1) (val x) a1 b1 :=
      fun x hx => hrec x (List.mem_cons_of_mem m hx)
    rw [List.foldr_cons]
    simp only [minLoop, next]
    set sc := rec (E.play s m).2 a b with hscdef
    by_cases hcut : min b sc ≤ a
    · rw [if_pos hcut]
      have hsca : sc ≤ a := by
        rcases min_le_iff.mp hcut with hc | hc
        · exact absurd hc (not_le.mpr hab)
        · exact hc
      have hvsc : val m ≤ sc := hm1 hsca
      refine ⟨?_, ?_, ?_⟩
      · intro _
        exact le_min (le_trans (min_le_right _ _) (foldr_min_le val rest mn))
          (le_trans (min_le_left _ _) hvsc)
      · intro hle
        exact absurd (le_trans hle (le_trans (min_le_right mn sc) hsca)) (not_le.mpr hab0)
      · intro har _
        exact absurd har (not_lt.mpr (le_trans (min_le_right mn sc) hsca))
    · rw [if_neg hcut]
      have hasc : a < min b sc := not_le.mp hcut
      have hb' : min b sc = min b0 (min mn sc) := by rw [hb, min_assoc]
      have hIH := ih hrest (min mn sc) (min b sc) b0 hb' hab0 hasc
      by_cases hscb : sc < b
      · have hasc2 : a < sc := lt_of_lt_of_le hasc (min_le_right b sc)
        have hveq : sc = val m := hm3 hasc2 hscb
        have heq : List.foldr (fun x acc => min (val x) acc) (min mn sc) rest
            = min (val m) (List.foldr (fun x acc => min (val x) acc) mn rest) := by
          rw [foldr_min_init val rest (min mn sc), foldr_min_init val rest mn, ← hveq]
          rw [min_comm mn sc, ← min_assoc, min_comm _ sc, min_assoc]
        rw [heq] at hIH
        exact hIH
      · have hbsc : b ≤ sc := not_lt.mp hscb
        have hscv : sc ≤ val m := hm2 hbsc
        obtain ⟨k1, k2, k3⟩ := hIH
        have hS1 := foldr_min_init val rest (min mn sc)
        have hS2 := foldr_min_init val rest mn
        set S := List.foldr (fun x acc => min (val x) acc) (⊤ : EInt) rest with hSdef
        have hVTmn : min (val m) (List.foldr (fun x acc => min (val x) acc) mn rest) ≤ mn :=
          le_trans (min_le_right _ _) (foldr_min_le val rest mn)
        have hVTge : List.foldr (fun x acc => min (val x) acc) (min mn sc) rest
            ≤ min (val m) (List.foldr (fun x acc => min (val x) acc) mn rest) := by
          rw [hS1, hS2]
          refine le_min ?_ (le_min ?_ ?_)
          · exact le_trans (min_le_right S _) (le_trans (min_le_right mn sc) hscv)
          · exact min_le_left S _
          · exact le_trans (min_le_right S _) (min_le_left mn sc)
        have hVIHge : min b0 (min (val m) (List.foldr (fun x acc => min (val x) acc) mn rest))
            ≤ List.foldr (fun x acc => min (val x) acc) (min mn sc) rest := by
          rw [hS1]
          refine le_min ?_ (le_min ?_ ?_)
          · refine le_trans (min_le_right b0 _) ?_
            rw [hS2]
            exact le_trans (min_le_right _ _) (min_le_left S mn)
          · exact le_trans (min_le_right b0 _) hVTmn
          · refine le_trans ?_ hbsc
            rw [hb]
            exact min_le_min (le_refl b0) hVTmn
        refine ⟨?_, ?_, ?_⟩
        · intro hRa
          have hR := le_trans hVIHge (k1 hRa)
          have hRb0 : minLoop E rec s rest (min mn sc) a (min b sc) < b0 :=
            lt_of_le_of_lt hRa hab0
          exact (min_le_iff.mp hR).resolve_left (not_le.mpr hRb0)
        · intro hb0R
          exact le_trans (k2 hb0R) hVTge
        · intro haR hRb0
          have hReq := k3 haR hRb0
          refine le_antisymm (le_trans (le_of_eq hReq) hVTge) ?_
          have hR : min b0 (min (val m) (List.foldr (fun x acc => min (val x) acc) mn rest))
              ≤ minLoop E rec s rest (min mn sc) a (min b sc) :=
            le_trans hVIHge (le_of_eq hReq.symm)
          exact (min_le_iff.mp hR).resolve_left (not_le.mpr hRb0)

theorem mainOrd_perm (E : Engine) (t : E.Pos) (l : List E.Move) :
    (mainOrd E t l).Perm l := by
  unfold mainOrd
  by_cases hlen : l.length > 10
  · rw [if_pos hlen]
    exact orderMovesP_perm E t l
  · rw [if_neg hlen]

/-- Fail-soft agreement of the pruned search with the unpruned full minimax
at every window, for any ordering policy that permutes the move list. -/
theorem minimaxOrd_appx (E : Engine) (ord : E.Pos → List E.Move → List E.Move)
    (hord : ∀ t l, (ord t l).Perm l) :
    ∀ (d : Nat) (s : E.Pos) (a b : EInt) (f : Bool), a < b →
      Appx (minimaxOrd E ord d s a b f) (fullMinimax E d s f) a b := by
  intro d
  induction d with
  | zero =>
    intro s a b f _
    exact ⟨fun _ => le_refl _, fun _ => le_refl _, fun _ _ => rfl⟩
  | succ d ih =>
    intro s a b f hab
    simp only [minimaxOrd, fullMinimax]
    by_cases hover : E.isGameOver s
    · simp only [hover, if_true]
      exact ⟨fun _ => le_refl _, fun _ => le_refl _, fun _ _ => rfl⟩
    · simp only [hover, Bool.false_eq_true, if_false]
      cases f with
      | true =>
        simp only [if_true]
        rw [List.foldr_map]
        rw [← foldr_max_perm (fun m => fullMinimax E d (next E s m) false)
          (hord s (E.moves s)) ⊥]
        exact maxLoop_appx E _ s _ b (ord s (E.moves s))
          (fun m _ a1 b1 h1 => ih (next E s m) a1 b1 false h1)
          ⊥ a a (max_eq_left bot_le).symm hab hab
      | false =>
        simp only [Bool.false_eq_true, if_false]
        rw [List.foldr_map]
        rw [← foldr_min_perm (fun m => fullMinimax E d (next E s m) true)
          (hord s (E.moves s)) ⊤]
        exact minLoop_appx E _ s _ a (ord s (E.moves s))
          (fun m _ a1 b1 h1 => ih (next E s m) a1 b1 true h1)
          ⊤ b b (min_eq_left le_top).symm hab hab

/-- With the full window, the pruned search returns exactly the unpruned full
minimax value, for any ordering policy that permutes the move list. -/
theorem minimaxOrd_eq_full (E : Engine) (ord : E.Pos → List E.Move → List E.Move)
    (hord : ∀ t l, (ord t l).Perm l) (d : Nat) (s : E.Pos) (f : Bool) :
    minimaxOrd E ord d s ⊥ ⊤ f = fullMinimax E d s f := by
  obtain ⟨h1, h2, h3⟩ := minimaxOrd_appx E ord hord d s ⊥ ⊤ f bot_lt_top
  rcases eq_or_ne (minimaxOrd E ord d s ⊥ ⊤ f) ⊥ with hbot | hbot
  · have hv := h1 (le_of_eq hbot)
    rw [hbot] at hv
    rw [hbot, le_bot_iff.mp hv]
  · rcases eq_or_ne (minimaxOrd E ord d s ⊥ ⊤ f) ⊤ with htop | htop
    · have hv := h2 (le_of_eq htop.symm)
      rw [htop] at hv
      rw [htop, top_le_iff.mp hv]
    · exact h3 (bot_lt_iff_ne_bot.mpr hbot) (lt_top_iff_ne_top.mpr htop)

theorem minimaxP_eq_full (E : Engine) (d : Nat) (s : E.Pos) (f : Bool) :
    minimaxP E d s ⊥ ⊤ f = fullMinimax E d s f :=
  minimaxOrd_eq_full E (mainOrd E) (mainOrd_perm E) d s f

/-! ## Membership facts for the best-move driver -/

theorem bestLoopSt_mem (E : Engine) (d : Nat) (isMax : Bool) :
    ∀ (l : List E.Move) (s : E.Pos) (best : E.Move) (bs : EInt),
      (bestLoopSt E d isMax s l best bs).1 = best ∨
        (bestLoopSt E d isMax s l best bs).1 ∈ l := by
  intro l
  induction l with
  | nil => intro s best bs; exact Or.inl rfl
  | cons m rest ih =>
    intro s best bs
    simp only [bestLoopSt]
    split
    · split
      · rcases ih _ m _ with h | h
        · exact Or.inr (by rw [h]; exact List.mem_cons_self m rest)
        · exact Or.inr (List.mem_cons_of_mem m h)
      · rcases ih _ best bs with h | h
        · exact Or.inl h
        · exact Or.inr (List.mem_cons_of_mem m h)
    · split
      · rcases ih _ m _ with h | h
        · exact Or.inr (by rw [h]; exact List.mem_cons_self m rest)
        · exact Or.inr (List.mem_cons_of_mem m h)
      · rcases ih _ best bs with h | h
        · exact Or.inl h
        · exact Or.inr (List.mem_cons_of_mem m h)

/-! ## Claim theorems (C1-C6, C9, C10) -/

/-- C1: for a fixed position and depth, the value returned by the alpha-beta
search (`minimax`, invoked as the source does with the full window
`(-Infinity, Infinity)`) equals the value computed by an unpruned full
minimax over the same depth-limited game tree: pruning never changes the
returned value. -/
theorem C1_alphabeta_eq_unpruned_minimax (E : Engine)
    (h : ∀ s m, m ∈ E.moves s → E.undo (E.play s m).2 = s)
    (d : Nat) (s : E.Pos) (f : Bool) :
    (minimaxSt E d s ⊥ ⊤ f).1 = fullMinimax E d s f := by
  rw [minimaxSt_eq E h d s ⊥ ⊤ f]
  exact minimaxP_eq_full E d s f

theorem C1_alphabeta_eq_unpruned_minimax_witness :
    (minimaxSt Cex 3 0 ⊥ ⊤ true).1 = fullMinimax Cex 3 0 true :=
  C1_alphabeta_eq_unpruned_minimax Cex (by decide) 3 0 true

/-- C2: the static evaluator returns the checkmate sentinel signed against
the side to move (negative when White is to move, positive when Black is),
returns exactly 0 for every recognized draw - stalemate included - and does
so by short-circuiting before any material summation.  The facts that a draw
is never a checkmate and that stalemate is a recognized draw are properties
of the external rules engine (chess.js), taken as hypotheses. -/
theorem C2_terminal_scoring (E : Engine)
    (hdm : ∀ t, E.isDraw t = true → E.isCheckmate t = false)
    (hsd : ∀ t, E.isStalemate t = true → E.isDraw t = true) :
    (∀ s, E.isCheckmate s = true →
      evaluatePosition E s = if E.turn s = Color.white then -99999 else 99999) ∧
    (∀ s, E.isDraw s = true → evaluatePosition E s = 0) ∧
    (∀ s, E.isStalemate s = true → evaluatePosition E s = 0) := by
  refine ⟨?_, ?_, ?_⟩
  · intro s hs
    simp [evaluatePosition, hs]
  · intro s hs
    simp [evaluatePosition, hs, hdm s hs]
  · intro s hs
    have hd := hsd s hs
    simp [evaluatePosition, hd, hdm s hd]

theorem C2_terminal_scoring_witness :
    evaluatePosition EvalToy 0 = -99999 ∧ evaluatePosition EvalToy 1 = 0 ∧
      evaluatePosition EvalToy 2 = 0 := by
  obtain ⟨h1, h2, h3⟩ := C2_terminal_scoring EvalToy (by decide) (by decide)
  refine ⟨?_, h2 1 (by decide), h3 2 (by decide)⟩
  rw [h1 0 (by decide)]
  decide

/-- C3: assuming each undo exactly reverts the most recent legal move
application, `orderMoves`, `minimax` and `getBestMove` all return with the
position in exactly the state it had at entry, on every control path
(beta-cutoff early exits included). -/
theorem C3_search_restores_position (E : Engine)
    (h : ∀ s m, m ∈ E.moves s → E.undo (E.play s m).2 = s) :
    (∀ s : E.Pos, (orderMovesSt E s (E.moves s)).2 = s) ∧
    (∀ (d : Nat) (s : E.Pos) (a b : EInt) (f : Bool), (minimaxSt E d s a b f).2 = s) ∧
    (∀ (s : E.Pos) (d : Nat), (getBestMoveSt E s d).2 = s) := by
  refine ⟨fun s => ?_, fun d s a b f => ?_, fun s d => ?_⟩
  · rw [orderMovesSt_eq E h s _ (fun x hx => hx)]
  · rw [minimaxSt_eq E h d s a b f]
  · rw [getBestMoveSt_eq E h s d]

theorem C3_search_restores_position_witness :
    (minimaxSt Cex 2 0 ⊥ ⊤ true).2 = 0 :=
  (C3_search_restores_position Cex (by decide)).2.1 2 0 ⊥ ⊤ true

/-- C4: for a fixed position and depth, running the alpha-beta search over
any permutation of the move lists (bypassing the move orderer) yields the
same final value as the search of the source with its own ordering policy. -/
theorem C4_move_order_irrelevant_to_value (E : Engine)
    (h : ∀ s m, m ∈ E.moves s → E.undo (E.play s m).2 = s)
    (ord : E.Pos → List E.Move → List E.Move) (hord : ∀ t l, (ord t l).Perm l)
    (d : Nat) (s : E.Pos) (f : Bool) :
    minimaxOrd E ord d s ⊥ ⊤ f = (minimaxSt E d s ⊥ ⊤ f).1 := by
  rw [minimaxSt_eq E h d s ⊥ ⊤ f]
  rw [minimaxOrd_eq_full E ord hord d s f]
  exact (minimaxP_eq_full E d s f).symm

theorem C4_move_order_irrelevant_to_value_witness :
    minimaxOrd Cex (fun _ l => l.reverse) 3 0 ⊥ ⊤ true = (minimaxSt Cex 3 0 ⊥ ⊤ true).1 :=
  C4_move_order_irrelevant_to_value Cex (by decide) (fun _ l => l.reverse)
    (fun _ l => List.reverse_perm l) 3 0 true

/-- C5: `getBestMove` returns `null` exactly when the position has no legal
moves; whenever at least one legal move exists it returns a member of the
legal-move list (the best move is seeded from the head of the ranked list). -/
theorem C5_best_move_none_iff_no_moves (E : Engine) (s : E.Pos) (d : Nat) :
    ((getBestMoveSt E s d).1 = none ↔ E.moves s = []) ∧
    (∀ m, (getBestMoveSt E s d).1 = some m → m ∈ E.moves s) := by
  by_cases hlen : (E.moves s).length = 0
  · have hnil : E.moves s = [] := List.length_eq_zero.mp hlen
    constructor
    · simp [getBestMoveSt, hlen, hnil]
    · intro m hm
      simp [getBestMoveSt, hlen] at hm
  · have hperm := orderMovesSt_fst_perm E s (E.moves s)
    have hne : (orderMovesSt E s (E.moves s)).1 ≠ [] := by
      intro hcon
      rw [hcon] at hperm
      exact hlen (by rw [← hperm.length_eq]; rfl)
    cases hord : (orderMovesSt E s (E.moves s)).1 with
    | nil => exact absurd hord hne
    | cons m0 rest =>
      rw [hord] at hperm
      constructor
      · constructor
        · intro hnone
          simp [getBestMoveSt, hlen, hord] at hnone
        · intro hcon
          exact absurd (List.length_eq_zero.mpr hcon) hlen
      · intro m hm
        simp only [getBestMoveSt, hlen, if_neg hlen, hord] at hm
        · have hmem : m = m0 ∨ m ∈ m0 :: rest := by
            rcases bestLoopSt_mem E (d - 1) (decide (E.turn s = Color.white))
                (m0 :: rest) (orderMovesSt E s (E.moves s)).2 m0
                (if decide (E.turn s = Color.white) then ⊥ else ⊤) with hh | hh
            · left
              rw [← hh]
              simpa using hm.symm
            · right
              have : m = (bestLoopSt E (d - 1) (decide (E.turn s = Color.white))
                  (orderMovesSt E s (E.moves s)).2 (m0 :: rest) m0
                  (if decide (E.turn s = Color.white) then ⊥ else ⊤)).1 := by
                simpa using hm.symm
              rw [this]
              exact hh
          rcases hmem with hh | hh
          · exact hperm.mem_iff.mp (by rw [hh]; exact List.mem_cons_self m0 rest)
          · exact hperm.mem_iff.mp hh

theorem C5_best_move_none_iff_no_moves_witness :
    (0 : Fin 2) ∈ Cex.moves 0 :=
  (C5_best_move_none_iff_no_moves Cex 0 1).2 0 (by decide)

/-- C9: the caller-supplied depth of the `get_best_move` tool is clamped
before the search runs: at most 3 in the primary handler and at most 4 in
the duplicate handler, however large the requested depth. -/
theorem C9_depth_clamped (d : Option ℤ) :
    clampDepth d ≤ 3 ∧ clampDepthDup d ≤ 4 :=
  ⟨min_le_right _ _, min_le_right _ _⟩

/-- C10: every tool call among `get_legal_moves`, `make_move`,
`get_best_move` and `get_board` whose game id is not in the games map
returns an isError result with text `Game not found` and leaves the map
(and so every stored position) unchanged; an unrecognized tool name returns
an isError `Unknown tool` result with no state change. -/
theorem C10_unknown_game_or_tool (E : Engine) (games : List (String × E.Pos))
    (gid : String) (h : findGame E games gid = none) :
    handleToolCall E games (ToolCall.get_legal_moves gid) = (⟨"Game not found", true⟩, games) ∧
    (∀ mv, handleToolCall E games (ToolCall.make_move gid mv) = (⟨"Game not found", true⟩, games)) ∧
    (∀ d, handleToolCall E games (ToolCall.get_best_move gid d) = (⟨"Game not found", true⟩, games)) ∧
    handleToolCall E games (ToolCall.get_board gid) = (⟨"Game not found", true⟩, games) ∧
    (∀ nm, handleToolCall E games (ToolCall.other nm) = (⟨"Unknown tool: " ++ nm, true⟩, games)) := by
  refine ⟨?_, fun mv => ?_, fun d => ?_, ?_, fun nm => ?_⟩ <;> simp [handleToolCall, h]

theorem C10_unknown_game_or_tool_witness :
    handleToolCall EvalToy [] (ToolCall.get_board "g1") = (⟨"Game not found", true⟩, []) :=
  (C10_unknown_game_or_tool EvalToy [] "g1" rfl).2.2.2.1

theorem moveScore_nocapture_le (E : Engine) (s : E.Pos) (x : E.Move)
    (hxc : (E.play s x).1.captured = none)
    (hxp : (E.play s x).1.promotion ≠ some PieceType.k) :
    moveScore E s x ≤ 950 := by
  unfold moveScore
  rw [hxc]
  rcases hp : (E.play s x).1.promotion with _ | pr
  · dsimp only
    split <;> norm_num
  · rw [hp] at hxp
    cases pr
    case k => exact absurd rfl hxp
    all_goals dsimp only [PIECE_VALUES]
    all_goals split <;> norm_num

theorem moveScore_pawn_takes_queen_ge (E : Engine) (s : E.Pos) (m : E.Move)
    (hcap : (E.play s m).1.captured = some PieceType.q)
    (hpiece : (E.play s m).1.piece = PieceType.p) :
    (8900:ℤ) ≤ moveScore E s m := by
  unfold moveScore
  rw [hcap, hpiece]
  rcases hp : (E.play s m).1.promotion with _ | pr
  · dsimp only [PIECE_VALUES]
    split <;> norm_num
  · cases pr <;> dsimp only [PIECE_VALUES] <;> split <;> norm_num

/-- C6: `orderMoves` returns a permutation of its input (here: the legal-move
list), sorted descending by the heuristic score (10x captured value minus
mover value for captures, plus promoted value, plus 50 for giving check); in
particular a pawn-takes-queen capture is placed first when every other move
is a non-capture.  The no-promotion-to-king fact is a rules-engine property
taken as a hypothesis. -/
theorem C6_orderMoves_ranking (E : Engine)
    (hundo : ∀ s m, m ∈ E.moves s → E.undo (E.play s m).2 = s)
    (hpromo : ∀ s m, m ∈ E.moves s → (E.play s m).1.promotion ≠ some PieceType.k)
    (s : E.Pos) :
    ((orderMovesSt E s (E.moves s)).1).Perm (E.moves s) ∧
    ((orderMovesSt E s (E.moves s)).1).Pairwise
      (fun m1 m2 => moveScore E s m2 ≤ moveScore E s m1) ∧
    (∀ m ∈ E.moves s,
      (E.play s m).1.captured = some PieceType.q → (E.play s m).1.piece = PieceType.p →
      (∀ x ∈ E.moves s, x ≠ m → (E.play s x).1.captured = none) →
      ((orderMovesSt E s (E.moves s)).1).head? = some m) := by
  have heq := orderMovesSt_eq E hundo s (E.moves s) (fun x hx => hx)
  rw [heq]
  refine ⟨orderMovesP_perm E s _, orderMovesP_sorted E s _, ?_⟩
  intro m hm hcap hpiece hothers
  apply orderMovesP_head E s _ m hm
  intro x hx hne
  have hsx := moveScore_nocapture_le E s x (hothers x hx hne) (hpromo s x hx)
  have hsm := moveScore_pawn_takes_queen_ge E s m hcap hpiece
  linarith

theorem C6_orderMoves_ranking_witness :
    ((orderMovesSt Cex 0 (Cex.moves 0)).1).head? = some 1 :=
  (C6_orderMoves_ranking Cex (by decide) (by decide) 0).2.2 1 (by decide) (by decide)
    (by decide) (by decide)

/-! ## Mate-in-one analysis -/

theorem le_maxLoop_acc (E : Engine) (rec : E.Pos → EInt → EInt → EInt) (b : EInt) :
    ∀ (l : List E.Move) (s : E.Pos) (mx a : EInt), mx ≤ maxLoop E rec s l mx a b := by
  intro l
  induction l with
  | nil => intro s mx a; exact le_refl mx
  | cons m rest ih =>
    intro s mx a
    simp only [maxLoop]
    split
    · exact le_max_left mx _
    · exact le_trans (le_max_left mx _) (ih s _ _)

theorem minLoop_acc_le (E : Engine) (rec : E.Pos → EInt → EInt → EInt) :
    ∀ (l : List E.Move) (s : E.Pos) (mn a b : EInt), minLoop E rec s l mn a b ≤ mn := by
  intro l
  induction l with
  | nil => intro s mn a b; exact le_refl mn
  | cons m rest ih =>
    intro s mn a b
    simp only [minLoop]
    split
    · exact min_le_left mn _
    · exact le_trans (ih s _ _ _) (min_le_left mn _)

theorem maxLoop_cons_ge (E : Engine) (rec : E.Pos → EInt → EInt → EInt)
    (s : E.Pos) (m : E.Move) (rest : List E.Move) (mx a b : EInt) :
    rec (next E s m) a b ≤ maxLoop E rec s (m :: rest) mx a b := by
  simp only [maxLoop]
  split
  · exact le_max_right mx _
  · exact le_trans (le_max_right mx _) (le_maxLoop_acc E rec b rest s _ _)

theorem minLoop_cons_le (E : Engine) (rec : E.Pos → EInt → EInt → EInt)
    (s : E.Pos) (m : E.Move) (rest : List E.Move) (mn a b : EInt) :
    minLoop E rec s (m :: rest) mn a b ≤ rec (next E s m) a b := by
  simp only [minLoop]
  split
  · exact min_le_right mn _
  · exact le_trans (minLoop_acc_le E rec rest s _ _ _) (min_le_right mn _)

theorem minimaxP_gameover (E : Engine) (d : Nat) (t : E.Pos)
    (hover : E.isGameOver t = true) (a b : EInt) (f : Bool) :
    minimaxP E d t a b f = toE (evaluatePosition E t) := by
  cases d with
  | zero => rfl
  | succ d => simp [minimaxP, minimaxOrd, hover]

theorem minimaxP_succ_max (E : Engine) (d : Nat) (t : E.Pos)
    (hovf : E.isGameOver t = false) (a b : EInt) :
    minimaxP E (d + 1) t a b true
      = maxLoop E (fun u a1 b1 => minimaxP E d u a1 b1 false) t
          (mainOrd E t (E.moves t)) ⊥ a b := by
  simp [minimaxP, minimaxOrd, hovf]

theorem minimaxP_succ_min (E : Engine) (d : Nat) (t : E.Pos)
    (hovf : E.isGameOver t = false) (a b : EInt) :
    minimaxP E (d + 1) t a b false
      = minLoop E (fun u a1 b1 => minimaxP E d u a1 b1 true) t
          (mainOrd E t (E.moves t)) ⊤ a b := by
  simp [minimaxP, minimaxOrd, hovf]

theorem eval_mate (E : Engine) (t : E.Pos) (hmate : E.isCheckmate t = true) :
    evaluatePosition E t = if E.turn t = Color.white then -99999 else 99999 := by
  simp [evaluatePosition, hmate]

/-- The value of a checkmate child of a White-to-move parent is exactly the
positive mate sentinel, at every depth and window. -/
theorem minimaxP_mate_black_turn (E : Engine)
    (hmo : ∀ t, E.isCheckmate t = true → E.isGameOver t = true)
    (t : E.Pos) (hmate : E.isCheckmate t = true) (hturn : E.turn t = Color.black)
    (d : Nat) (a b : EInt) (f : Bool) : minimaxP E d t a b f = toE 99999 := by
  rw [minimaxP_gameover E d t (hmo t hmate) a b f, eval_mate E t hmate, hturn]
  rfl

/-- The value of a checkmate child of a Black-to-move parent is exactly the
negative mate sentinel. -/
theorem minimaxP_mate_white_turn (E : Engine)
    (hmo : ∀ t, E.isCheckmate t = true → E.isGameOver t = true)
    (t : E.Pos) (hmate : E.isCheckmate t = true) (hturn : E.turn t = Color.white)
    (d : Nat) (a b : EInt) (f : Bool) : minimaxP E d t a b f = toE (-99999) := by
  rw [minimaxP_gameover E d t (hmo t hmate) a b f, eval_mate E t hmate, hturn]
  rfl

/-- A non-checkmate Black-to-move child evaluated at depth 0 or 1 scores
strictly below the positive mate sentinel. -/
theorem sibling_bound_white (E : Engine) (hL : Lawful E)
    (hB : ∀ t, E.isCheckmate t = false →
      -99999 < evaluatePosition E t ∧ evaluatePosition E t < 99999)
    (t : E.Pos) (ht : E.turn t = Color.black) (hnm : E.isCheckmate t = false)
    (k : Nat) (hk : k = 0 ∨ k = 1) :
    minimaxP E k t ⊥ ⊤ false < toE 99999 := by
  rcases hk with rfl | rfl
  · exact toE_lt_toE.mpr (hB t hnm).2
  · rcases Bool.eq_false_or_eq_true (E.isGameOver t) with hover | hovf
    · rw [minimaxP_gameover E 1 t hover ⊥ ⊤ false]
      exact toE_lt_toE.mpr (hB t hnm).2
    · have hne := hL.moves_ne t hovf
      have hperm := mainOrd_perm E t (E.moves t)
      cases hms : mainOrd E t (E.moves t) with
      | nil =>
        rw [hms] at hperm
        exact absurd hperm.symm.eq_nil hne
      | cons g grest =>
        have hg : g ∈ E.moves t :=
          mainOrd_mem E t (E.moves t) g (by rw [hms]; exact List.mem_cons_self g grest)
        have hgt : E.turn (next E t g) = Color.white := by
          rw [next, hL.turn_play t g hg, ht]
          rfl
        have hgeval : evaluatePosition E (next E t g) < 99999 := by
          rcases Bool.eq_false_or_eq_true (E.isCheckmate (next E t g)) with hgm | hgm
          · rw [eval_mate E _ hgm, hgt]
            decide
          · exact (hB _ hgm).2
        rw [minimaxP_succ_min E 0 t hovf ⊥ ⊤, hms]
        refine lt_of_le_of_lt (minLoop_cons_le E _ t g grest ⊤ ⊥ ⊤) ?_
        exact toE_lt_toE.mpr hgeval

/-- A non-checkmate White-to-move child evaluated at depth 0 or 1 scores
strictly above the negative mate sentinel. -/
theorem sibling_bound_black (E : Engine) (hL : Lawful E)
    (hB : ∀ t, E.isCheckmate t = false →
      -99999 < evaluatePosition E t ∧ evaluatePosition E t < 99999)
    (t : E.Pos) (ht : E.turn t = Color.white) (hnm : E.isCheckmate t = false)
    (k : Nat) (hk : k = 0 ∨ k = 1) :
    toE (-99999) < minimaxP E k t ⊥ ⊤ true := by
  rcases hk with rfl | rfl
  · exact toE_lt_toE.mpr (hB t hnm).1
  · rcases Bool.eq_false_or_eq_true (E.isGameOver t) with hover | hovf
    · rw [minimaxP_gameover E 1 t hover ⊥ ⊤ true]
      exact toE_lt_toE.mpr (hB t hnm).1
    · have hne := hL.moves_ne t hovf
      have hperm := mainOrd_perm E t (E.moves t)
      cases hms : mainOrd E t (E.moves t) with
      | nil =>
        rw [hms] at hperm
        exact absurd hperm.symm.eq_nil hne
      | cons g grest =>
        have hg : g ∈ E.moves t :=
          mainOrd_mem E t (E.moves t) g (by rw [hms]; exact List.mem_cons_self g grest)
        have hgt : E.turn (next E t g) = Color.black := by
          rw [next, hL.turn_play t g hg, ht]
          rfl
        have hgeval : -99999 < evaluatePosition E (next E t g) := by
          rcases Bool.eq_false_or_eq_true (E.isCheckmate (next E t g)) with hgm | hgm
          · rw [eval_mate E _ hgm, hgt]
            decide
          · exact (hB _ hgm).1
        rw [minimaxP_succ_max E 0 t hovf ⊥ ⊤, hms]
        refine lt_of_lt_of_le ?_ (maxLoop_cons_ge E _ t g grest ⊥ ⊥ ⊤)
        exact toE_lt_toE.mpr hgeval

theorem bestLoopP_max_stay (E : Engine) (d : Nat) (s : E.Pos) :
    ∀ (l : List E.Move) (best : E.Move) (bs : EInt),
      (∀ x ∈ l, ¬(bs < minimaxP E d (next E s x) ⊥ ⊤ false)) →
      bestLoopP E d true s l best bs = best := by
  intro l
  induction l with
  | nil => intro best bs _; rfl
  | cons m rest ih =>
    intro best bs h
    simp only [bestLoopP, Bool.not_true, if_true]
    rw [if_neg (h m (List.mem_cons_self m rest))]
    exact ih best bs (fun x hx => h x (List.mem_cons_of_mem m hx))

theorem bestLoopP_min_stay (E : Engine) (d : Nat) (s : E.Pos) :
    ∀ (l : List E.Move) (best : E.Move) (bs : EInt),
      (∀ x ∈ l, ¬(minimaxP E d (next E s x) ⊥ ⊤ true < bs)) →
      bestLoopP E d false s l best bs = best := by
  intro l
  induction l with
  | nil => intro best bs _; rfl
  | cons m rest ih =>
    intro best bs h
    simp only [bestLoopP, Bool.not_false, Bool.false_eq_true, if_false]
    rw [if_neg (h m (List.mem_cons_self m rest))]
    exact ih best bs (fun x hx => h x (List.mem_cons_of_mem m hx))

/-- A maximizing best-move loop returns the unique strict argmax whenever the
running best score is still below the argmax value. -/
theorem bestLoopP_max_argmax (E : Engine) (d : Nat) (s : E.Pos) (m : E.Move) :
    ∀ l : List E.Move, m ∈ l →
      (∀ x ∈ l, x ≠ m →
        minimaxP E d (next E s x) ⊥ ⊤ false < minimaxP E d (next E s m) ⊥ ⊤ false) →
      ∀ (best : E.Move) (bs : EInt), bs < minimaxP E d (next E s m) ⊥ ⊤ false →
        bestLoopP E d true s l best bs = m := by
  intro l
  induction l with
  | nil => intro hm; exact absurd hm (List.not_mem_nil m)
  | cons m0 rest ih =>
    intro hm hlt best bs hbs
    simp only [bestLoopP, Bool.not_true, if_true]
    by_cases hm0 : m0 = m
    · subst hm0
      rw [if_pos hbs]
      apply bestLoopP_max_stay
      intro x hx
      by_cases hxm : x = m0
      · subst hxm
        exact lt_irrefl _
      · exact not_lt.mpr (le_of_lt (hlt x (List.mem_cons_of_mem m0 hx) hxm))
    · have hm' : m ∈ rest := by
        rcases List.mem_cons.mp hm with h | h
        · exact absurd h.symm hm0
        · exact h
      have hrest : ∀ x ∈ rest, x ≠ m →
          minimaxP E d (next E s x) ⊥ ⊤ false < minimaxP E d (next E s m) ⊥ ⊤ false :=
        fun x hx => hlt x (List.mem_cons_of_mem m0 hx)
      have hlt0 := hlt m0 (List.mem_cons_self m0 rest) hm0
      split
      · exact ih hm' hrest m0 _ hlt0
      · exact ih hm' hrest best bs hbs

/-- A minimizing best-move loop returns the unique strict argmin whenever the
running best score is still above the argmin value. -/
theorem bestLoopP_min_argmax (E : Engine) (d : Nat) (s : E.Pos) (m : E.Move) :
    ∀ l : List E.Move, m ∈ l →
      (∀ x ∈ l, x ≠ m →
        minimaxP E d (next E s m) ⊥ ⊤ true < minimaxP E d (next E s x) ⊥ ⊤ true) →
      ∀ (best : E.Move) (bs : EInt), minimaxP E d (next E s m) ⊥ ⊤ true < bs →
        bestLoopP E d false s l best bs = m := by
  intro l
  induction l with
  | nil => intro hm; exact absurd hm (List.not_mem_nil m)
  | cons m0 rest ih =>
    intro hm hlt best bs hbs
    simp only [bestLoopP, Bool.not_false, Bool.false_eq_true, if_false]
    by_cases hm0 : m0 = m
    · subst hm0
      rw [if_pos hbs]
      apply bestLoopP_min_stay
      intro x hx
      by_cases hxm : x = m0
      · subst hxm
        exact lt_irrefl _
      · exact not_lt.mpr (le_of_lt (hlt x (List.mem_cons_of_mem m0 hx) hxm))
    · have hm' : m ∈ rest := by
        rcases List.mem_cons.mp hm with h | h
        · exact absurd h.symm hm0
        · exact h
      have hrest : ∀ x ∈ rest, x ≠ m →
          minimaxP E d (next E s m) ⊥ ⊤ true < minimaxP E d (next E s x) ⊥ ⊤ true :=
        fun x hx => hlt x (List.mem_cons_of_mem m0 hx)
      have hlt0 := hlt m0 (List.mem_cons_self m0 rest) hm0
      split
      · exact ih hm' hrest m0 _ hlt0
      · exact ih hm' hrest best bs hbs

/-- C7 (amended): for every position in which the side to move has exactly
one move that immediately delivers checkmate, `getBestMove` at depth 1 or 2
returns exactly that mating move.  (At depth 3 and beyond the claim fails,
see the counterexample: a forced mate-in-two ranked earlier also reaches the
sentinel value and ties are never displaced.)  Evaluation boundedness of
non-checkmate positions is supplied by the hypothesis `hB` (claim C8). -/
theorem C7_mate_in_one_depth_le_two (E : Engine) (hL : Lawful E)
    (hB : ∀ t, E.isCheckmate t = false →
      -99999 < evaluatePosition E t ∧ evaluatePosition E t < 99999)
    (s : E.Pos) (m : E.Move) (hm : m ∈ E.moves s)
    (hmate : E.isCheckmate (next E s m) = true)
    (huniq : ∀ x ∈ E.moves s, x ≠ m → E.isCheckmate (next E s x) = false)
    (d : Nat) (hd : d = 1 ∨ d = 2) :
    (getBestMoveSt E s d).1 = some m := by
  rw [getBestMoveSt_eq E hL.undo_play s d]
  show getBestMoveP E s d = some m
  have hlen : ¬((E.moves s).length = 0) := by
    intro hc
    rw [List.length_eq_zero] at hc
    rw [hc] at hm
    exact List.not_mem_nil m hm
  have hperm := orderMovesP_perm E s (E.moves s)
  have hd1 : d - 1 = 0 ∨ d - 1 = 1 := by
    rcases hd with rfl | rfl
    · left; rfl
    · right; rfl
  cases hord : orderMovesP E s (E.moves s) with
  | nil =>
    rw [hord] at hperm
    have hnil : E.moves s = [] := hperm.symm.eq_nil
    rw [hnil] at hm
    exact absurd hm (List.not_mem_nil m)
  | cons m0 rest =>
    rw [hord] at hperm
    have hmem : m ∈ m0 :: rest := hperm.mem_iff.mpr hm
    have hsub : ∀ x ∈ m0 :: rest, x ∈ E.moves s := fun x hx => hperm.mem_iff.mp hx
    have hturnm : E.turn (next E s m) = (E.turn s).other := hL.turn_play s m hm
    cases hw : E.turn s with
    | white =>
      have hvm : minimaxP E (d - 1) (next E s m) ⊥ ⊤ false = toE 99999 :=
        minimaxP_mate_black_turn E hL.mate_over _ hmate
          (by rw [hturnm, hw]; rfl) (d - 1) ⊥ ⊤ false
      have hlt : ∀ x ∈ m0 :: rest, x ≠ m →
          minimaxP E (d - 1) (next E s x) ⊥ ⊤ false
            < minimaxP E (d - 1) (next E s m) ⊥ ⊤ false := by
        intro x hx hxm
        rw [hvm]
        exact sibling_bound_white E hL hB (next E s x)
          (by rw [next, hL.turn_play s x (hsub x hx), hw]; rfl)
          (huniq x (hsub x hx) hxm) (d - 1) hd1
      have hloop := bestLoopP_max_argmax E (d - 1) s m (m0 :: rest) hmem hlt m0 ⊥
        (by rw [hvm]; exact bot_lt_toE 99999)
      simp only [getBestMoveP, if_neg hlen, hord, hw]
      simpa using hloop
    | black =>
      have hvm : minimaxP E (d - 1) (next E s m) ⊥ ⊤ true = toE (-99999) :=
        minimaxP_mate_white_turn E hL.mate_over _ hmate
          (by rw [hturnm, hw]; rfl) (d - 1) ⊥ ⊤ true
      have hlt : ∀ x ∈ m0 :: rest, x ≠ m →
          minimaxP E (d - 1) (next E s m) ⊥ ⊤ true
            < minimaxP E (d - 1) (next E s x) ⊥ ⊤ true := by
        intro x hx hxm
        rw [hvm]
        exact sibling_bound_black E hL hB (next E s x)
          (by rw [next, hL.turn_play s x (hsub x hx), hw]; rfl)
          (huniq x (hsub x hx) hxm) (d - 1) hd1
      have hloop := bestLoopP_min_argmax E (d - 1) s m (m0 :: rest) hmem hlt m0 ⊤
        (by rw [hvm]; exact toE_lt_top (-99999))
      simp only [getBestMoveP, if_neg hlen, hord, hw]
      simpa using hloop

theorem C7_mate_in_one_depth_le_two_witness :
    (getBestMoveSt Cex 0 1).1 = some 0 :=
  C7_mate_in_one_depth_le_two Cex
    ⟨by decide, by decide, by decide, by decide, by decide, by decide, by decide, by decide⟩
    (by decide) 0 0 (by decide) (by decide) (by decide) 1 (Or.inl rfl)

/-- C7 counterexample: in the lawful engine `Cex`, position 0 (White to
move, legal moves 0 and 1) has exactly one mate-in-one (move 0, a checking
move into the checkmate state 1), evaluation of non-checkmate states is
strictly inside the sentinel bounds, yet `getBestMove` at depth 3 (which is
`≥ 1`) returns move 1 - the pawn-takes-queen capture that forces mate in two
and is ranked first by the move orderer - and not the mating move 0.  So the
claim as stated (any depth `≥ 1`) is false. -/
theorem C7_depth3_counterexample :
    Lawful Cex ∧
    (∀ t : Fin 5, Cex.isCheckmate t = false →
      -99999 < evaluatePosition Cex t ∧ evaluatePosition Cex t < 99999) ∧
    (0 : Fin 2) ∈ Cex.moves 0 ∧
    Cex.isCheckmate (next Cex 0 0) = true ∧
    (∀ x ∈ Cex.moves 0, x ≠ (0 : Fin 2) → Cex.isCheckmate (next Cex 0 x) = false) ∧
    1 ≤ (3 : Nat) ∧
    (getBestMoveSt Cex 0 3).1 = some 1 ∧ (1 : Fin 2) ≠ (0 : Fin 2) := by
  refine ⟨⟨?_, ?_, ?_, ?_, ?_, ?_, ?_, ?_⟩, ?_, ?_, ?_, ?_, ?_, ?_, ?_⟩ <;> decide

/-! ## Bounding the ordinary evaluation (claim C8) -/

theorem getPST_bounds : ∀ (t : PieceType) (c : Color) (r cl : Fin 8),
    -50 ≤ getPST ⟨t, c⟩ r.val cl.val ∧ getPST ⟨t, c⟩ r.val cl.val ≤ 50 := by
  decide

theorem listScore_le_upperOf (bd : Board) :
    ∀ l : List (Fin 8 × Fin 8),
      (l.map (fun rc => cellScore bd rc.1 rc.2)).sum ≤ upperOf bd l := by
  intro l
  induction l with
  | nil => simp [upperOf, countIn]
  | cons rc l ih =>
    rw [List.map_cons, List.sum_cons]
    rcases hb : bd rc.1 rc.2 with _ | ⟨t, c⟩
    · have hcs : cellScore bd rc.1 rc.2 = 0 := by simp [cellScore, hb]
      have hup : upperOf bd (rc :: l) = upperOf bd l := by
        simp [upperOf, countIn, List.countP_cons, hb]
      rw [hcs, hup]
      linarith
    · obtain ⟨hp1, hp2⟩ := getPST_bounds t c rc.1 rc.2
      have hcs : cellScore bd rc.1 rc.2 =
          (if c = Color.white then (1:ℤ) else -1)
            * (PIECE_VALUES t + getPST ⟨t, c⟩ rc.1.val rc.2.val) := by
        simp only [cellScore, hb]
        split
        · rw [one_mul]
        · rw [neg_one_mul]
      cases t <;> cases c <;>
        (simp only [upperOf, countIn, List.countP_cons, hb] at ih ⊢
         simp only [hcs, PIECE_VALUES]
         simp
         linarith)

theorem lowerOf_le_listScore (bd : Board) :
    ∀ l : List (Fin 8 × Fin 8),
      lowerOf bd l ≤ (l.map (fun rc => cellScore bd rc.1 rc.2)).sum := by
  intro l
  induction l with
  | nil => simp [lowerOf, countIn]
  | cons rc l ih =>
    rw [List.map_cons, List.sum_cons]
    rcases hb : bd rc.1 rc.2 with _ | ⟨t, c⟩
    · have hcs : cellScore bd rc.1 rc.2 = 0 := by simp [cellScore, hb]
      have hlo : lowerOf bd (rc :: l) = lowerOf bd l := by
        simp [lowerOf, countIn, List.countP_cons, hb]
      rw [hcs, hlo]
      linarith
    · obtain ⟨hp1, hp2⟩ := getPST_bounds t c rc.1 rc.2
      have hcs : cellScore bd rc.1 rc.2 =
          (if c = Color.white then (1:ℤ) else -1)
            * (PIECE_VALUES t + getPST ⟨t, c⟩ rc.1.val rc.2.val) := by
        simp only [cellScore, hb]
        split
        · rw [one_mul]
        · rw [neg_one_mul]
      cases t <;> cases c <;>
        (simp only [lowerOf, countIn, List.countP_cons, hb] at ih ⊢
         simp only [hcs, PIECE_VALUES]
         simp
         linarith)

set_option maxHeartbeats 2000000 in
theorem boardScore_bounds (bd : Board) (hLB : LegalBoard bd) :
    -11250 ≤ boardScore bd ∧ boardScore bd ≤ 11250 := by
  obtain ⟨hwk, hbk, hwp, hbp⟩ := hLB
  have hup := listScore_le_upperOf bd allCells
  have hlo := lowerOf_le_listScore bd allCells
  unfold promoCount countPiece at hwp hbp
  unfold countPiece at hwk hbk
  unfold upperOf at hup
  unfold lowerOf at hlo
  unfold boardScore
  constructor <;> omega

/-- C8: for every board satisfying the necessary legality conditions of a
real chess position (one king per side, promotion accounting), in a position
that is neither checkmate nor a recognized draw, the material plus
piece-square plus mobility evaluation is strictly below the checkmate
sentinel magnitude 99999.  The mobility count is bounded by 1000, a generous
over-approximation of the known maximum number of legal moves in any chess
position (218), supplied as a rules-engine hypothesis. -/
theorem C8_ordinary_eval_below_sentinel (E : Engine) (s : E.Pos)
    (h1 : E.isCheckmate s = false) (h2 : E.isDraw s = false)
    (h3 : LegalBoard (E.board s)) (h4 : (E.moves s).length ≤ 1000) :
    |evaluatePosition E s| < 99999 := by
  have hb := boardScore_bounds (E.board s) h3
  have hm1 : (0:ℤ) ≤ ((E.moves s).length : ℤ) := Int.natCast_nonneg _
  have hm2 : ((E.moves s).length : ℤ) ≤ 1000 := by exact_mod_cast h4
  unfold evaluatePosition
  rw [h1, h2]
  simp only [Bool.false_eq_true, if_false]
  rw [abs_lt]
  split
  · constructor <;> linarith [hb.1, hb.2]
  · constructor <;> linarith [hb.1, hb.2]

theorem C8_ordinary_eval_below_sentinel_witness :
    |evaluatePosition EvalToy 3| < 99999 :=
  C8_ordinary_eval_below_sentinel EvalToy 3 (by decide) (by decide)
    (by unfold LegalBoard; decide) (by decide)

end ChessMCP
